import Mathlib

/-!
Formal model of the study-plan scheduler of the StudyPlanner repository
(`script.js`), together with proofs about its allocation algorithm.

Hours are modelled as exact rationals.  The JavaScript
`parseFloat(x.toFixed(2))` rounding of recorded values is modelled by
`round2` (round half up to two decimal places).  The day/session loops of
`calculateStudyPlan` (script.js lines 105-184) are modelled by an explicit
state-passing recursion: `fillDay` is the inner `while` loop (one fuel unit
per iteration; the safety valve at lines 170-173 bounds the number of
iterations, and `fillDay_exit`/`fillDay_fuel_stable` show the fuel supplied
by `dayStep` is never exhausted, so the fuel is only a device to make the
recursion structural), and `runDays` is the outer `for` loop over days.
-/

set_option maxRecDepth 20000

attribute [local semireducible] Rat.mul Rat.add Rat.sub Rat.inv

namespace StudyPlanner

/-- Result record returned by `validateInputs` (script.js lines 58-93). -/
structure ValidationResult where
  isValid : Bool
  message : String
deriving DecidableEq, Repr

/-- Model of `validateInputs(subjects, hoursPerDay, daysLeft)`
(script.js lines 58-93).  JavaScript truthiness: a string is falsy iff it
is empty, a number is falsy iff it is zero; hence `!subjects` becomes
`subjects = ""` and `!hoursPerDay || hoursPerDay <= 0` becomes the
disjunction below. -/
def validateInputs (subjects : String) (hoursPerDay : ℚ) (daysLeft : ℤ) : ValidationResult :=
  if subjects = "" then
    ⟨false, "⚠️ Please enter at least one subject."⟩
  else if hoursPerDay = 0 ∨ hoursPerDay ≤ 0 then
    ⟨false, "⚠️ Please enter valid hours per day (greater than 0)."⟩
  else if 24 < hoursPerDay then
    ⟨false, "⚠️ Hours per day cannot exceed 24 hours."⟩
  else if daysLeft = 0 ∨ daysLeft ≤ 0 then
    ⟨false, "⚠️ Please enter valid number of days (greater than 0)."⟩
  else
    ⟨true, ""⟩

/-- Model of JavaScript `String.prototype.split(',')` acting on the
character list of the string: `"".split(',')` gives `[""]`, and each comma
starts a new (possibly empty) chunk. -/
def splitOnComma : List Char → List (List Char)
  | [] => [[]]
  | c :: cs =>
    if c = ',' then [] :: splitOnComma cs
    else
      match splitOnComma cs with
      | [] => [[c]]
      | t :: ts => (c :: t) :: ts

/-- Model of `String.prototype.trim`: drop whitespace from both ends. -/
def trimList (l : List Char) : List Char :=
  ((l.dropWhile Char.isWhitespace).reverse.dropWhile Char.isWhitespace).reverse

/-- Model of `parseSubjects` (script.js lines 96-102): split the raw text on
commas, trim each piece, and keep only the non-empty pieces. -/
def parseSubjects (s : String) : List String :=
  (((splitOnComma s.data).map trimList).filter (fun t => decide (0 < t.length))).map
    (fun t => String.mk t)

/-- One recorded study session.  `name` and `hours` are the two fields the
source pushes at script.js lines 148-151, with `hours` rounded to two
decimals at the moment of recording; `exact` is a ghost field carrying the
unrounded `hoursToAllocate` (the source stores only the rounded value, but
keeps subtracting the unrounded one from its running totals). -/
structure Allocation where
  name : String
  hours : ℚ
  exact : ℚ
deriving DecidableEq, Repr

/-- One day of the produced schedule (the `dailySchedule` object,
script.js lines 124-128). -/
structure DayPlan where
  day : ℕ
  subjects : List Allocation
  totalHours : ℚ
deriving DecidableEq, Repr

/-- Round half up to two decimal places: the model of JavaScript
`parseFloat(x.toFixed(2))` for the nonnegative quantities of this program. -/
def round2 (q : ℚ) : ℚ := (Int.floor (q * 100 + 1 / 2) : ℚ) / 100

/-- State of the inner `while` loop of `calculateStudyPlan`:
the per-subject remaining-hours map (`remainingHours`, keyed by name as the
JavaScript object is), the rotation cursor `subjectIndex`, the current day's
allocation list and its exact running total (`dailySchedule.subjects` and
`dailySchedule.totalHours` before final rounding), the hours still to fill
today (`remainingDailyHours`), and a ghost flag recording whether the
safety-valve break at script.js lines 170-173 has been taken. -/
structure InnerState where
  remaining : String → ℚ
  subjectIndex : ℕ
  allocs : List Allocation
  dailyRemaining : ℚ
  dayTotal : ℚ
  valveFired : Bool

/-- Model of `subjects[subjectIndex % subjects.length]` (script.js line 135). -/
def currentSubject (S : List String) (st : InnerState) : String :=
  S.getD (st.subjectIndex % S.length) ""

/-- Model of `Math.min(remainingDailyHours, remainingHours[currentSubject], 2)`
(script.js lines 141-145). -/
def takeAmount (S : List String) (st : InnerState) : ℚ :=
  min st.dailyRemaining (min (st.remaining (currentSubject S st)) 2)

/-- One iteration body of the inner loop up to and including the cursor
advance (script.js lines 134-160): if the current subject still has budget,
record an allocation (rounded to two decimals) and subtract the unrounded
take from the subject's budget, the daily budget and the day total; in
either case advance the cursor. -/
def allocStep (S : List String) (st : InnerState) : InnerState :=
  if 0 < st.remaining (currentSubject S st) then
    { remaining := fun s =>
        if s = currentSubject S st then st.remaining s - takeAmount S st else st.remaining s
      subjectIndex := st.subjectIndex + 1
      allocs := st.allocs ++
        [⟨currentSubject S st, round2 (takeAmount S st), takeAmount S st⟩]
      dailyRemaining := st.dailyRemaining - takeAmount S st
      dayTotal := st.dayTotal + takeAmount S st
      valveFired := st.valveFired }
  else
    { st with subjectIndex := st.subjectIndex + 1 }

/-- The inner `while (remainingDailyHours > 0)` loop (script.js lines
133-174).  After each iteration the loop first breaks if every subject's
remaining budget is `≤ 0` (lines 162-168) and then breaks, setting the
ghost flag, if the cursor exceeded `N` (the safety valve, lines 170-173).
The fuel argument only makes the recursion structural: `fillDay_exit`
proves the fuel passed by `dayStep` never runs out. -/
def fillDay (S : List String) (N : ℕ) : ℕ → InnerState → InnerState
  | 0, st => st
  | fuel + 1, st =>
    if 0 < st.dailyRemaining then
      if S.all (fun s => decide ((allocStep S st).remaining s ≤ 0)) then allocStep S st
      else if N < (allocStep S st).subjectIndex then { allocStep S st with valveFired := true }
      else fillDay S N fuel (allocStep S st)
    else st

/-- State carried between days of the outer loop: budget map, rotation
cursor (which persists across days), the schedule built so far, and the
ghost valve flag. -/
structure OuterState where
  remaining : String → ℚ
  subjectIndex : ℕ
  schedule : List DayPlan
  valveFired : Bool

/-- Fresh inner state at the start of a day (script.js lines 124-130):
empty allocation list, day total `0`, daily budget `hoursPerDay`. -/
def dayInit (hoursPerDay : ℚ) (st : OuterState) : InnerState :=
  ⟨st.remaining, st.subjectIndex, [], hoursPerDay, 0, st.valveFired⟩

/-- One iteration of the outer `for (day = 1; day <= totalDays; ...)` loop
(script.js lines 123-181): run the inner loop, then append the day to the
schedule (with its total rounded to two decimals) only if it received at
least one allocation. -/
def dayStep (S : List String) (N : ℕ) (hoursPerDay : ℚ) (day : ℕ) (st : OuterState) :
    OuterState :=
  let r := fillDay S N (N + 2) (dayInit hoursPerDay st)
  { remaining := r.remaining
    subjectIndex := r.subjectIndex
    schedule :=
      if r.allocs = [] then st.schedule
      else st.schedule ++ [⟨day, r.allocs, round2 r.dayTotal⟩]
    valveFired := r.valveFired }

/-- The outer loop: process `k` further days starting at day index `day`. -/
def runDays (S : List String) (hoursPerDay : ℚ) (N : ℕ) : ℕ → ℕ → OuterState → OuterState
  | 0, _, st => st
  | k + 1, day, st => runDays S hoursPerDay N k (day + 1) (dayStep S N hoursPerDay day st)

/-- Model of `hoursPerSubject = totalHours / subjects.length` (script.js
lines 107-110), as an exact rational. -/
def hoursPerSubject (S : List String) (hoursPerDay : ℚ) (totalDays : ℕ) : ℚ :=
  hoursPerDay * totalDays / S.length

/-- The initial `remainingHours` map (script.js lines 113-116): a
name-keyed map giving every listed subject the equal share (JavaScript
object semantics: duplicate names collapse onto one entry; absent keys read
as a non-positive default, here `0`, matching `undefined > 0` being false). -/
def remaining0 (S : List String) (hoursPerDay : ℚ) (totalDays : ℕ) : String → ℚ :=
  S.foldl (fun f s => fun s' => if s' = s then hoursPerSubject S hoursPerDay totalDays else f s')
    (fun _ => 0)

/-- The safety-valve cursor bound `subjects.length * totalDays * 10`
(script.js line 171). -/
def valveBound (S : List String) (totalDays : ℕ) : ℕ := S.length * totalDays * 10

/-- The state on entry of the outer loop (script.js lines 113-120). -/
def initState (S : List String) (hoursPerDay : ℚ) (totalDays : ℕ) : OuterState :=
  ⟨remaining0 S hoursPerDay totalDays, 0, [], false⟩

/-- The scheduler state after the first `k` days have been processed. -/
def runUpTo (S : List String) (hoursPerDay : ℚ) (totalDays : ℕ) (k : ℕ) : OuterState :=
  runDays S hoursPerDay (valveBound S totalDays) k 1 (initState S hoursPerDay totalDays)

/-- The full run of `calculateStudyPlan` (script.js lines 105-184),
returning the final state including the ghost data. -/
def calcRun (S : List String) (hoursPerDay : ℚ) (totalDays : ℕ) : OuterState :=
  runUpTo S hoursPerDay totalDays totalDays

/-- Model of `calculateStudyPlan(subjects, hoursPerDay, totalDays)`: the
returned schedule (script.js line 183). -/
def calculateStudyPlan (S : List String) (hoursPerDay : ℚ) (totalDays : ℕ) : List DayPlan :=
  (calcRun S hoursPerDay totalDays).schedule

/-- All allocations of a schedule, in order. -/
def allAllocs (sched : List DayPlan) : List Allocation :=
  (sched.map DayPlan.subjects).flatten

/-- Number of allocations in a schedule. -/
def allocCount (sched : List DayPlan) : ℕ := (allAllocs sched).length

/-- Sum of the recorded (rounded) `hours` fields of a list of allocations. -/
def rsum (l : List Allocation) : ℚ := (l.map Allocation.hours).sum

/-- Sum of the exact (unrounded) takes of a list of allocations. -/
def esum (l : List Allocation) : ℚ := (l.map Allocation.exact).sum

/-- Sum of the recorded `hours` of the allocations naming subject `s`. -/
def rsumFor (s : String) (l : List Allocation) : ℚ :=
  (l.map fun a => if a.name = s then a.hours else 0).sum

/-- Sum of the exact takes of the allocations naming subject `s`. -/
def esumFor (s : String) (l : List Allocation) : ℚ :=
  (l.map fun a => if a.name = s then a.exact else 0).sum

/-- The invariant carried across processed days.  `k` counts the days the
outer loop has handled; `remaining0` is the initial budget map.  The
`exhaust` clause records the exact-budget bookkeeping as long as the ghost
safety-valve flag is still clear: either every subject's budget has hit
exactly zero, or exactly `hoursPerDay` was consumed per processed day. -/
structure OuterInv (S : List String) (hpd : ℚ) (D : ℕ) (k : ℕ) (st : OuterState) : Prop where
  rem_nonneg : ∀ s, 0 ≤ st.remaining s
  rem_acct : ∀ s, st.remaining s + esumFor s (allAllocs st.schedule) = remaining0 S hpd D s
  day_total : ∀ dp ∈ st.schedule, dp.totalHours = round2 (esum dp.subjects)
  day_cap : ∀ dp ∈ st.schedule, esum dp.subjects ≤ hpd
  alloc_round : ∀ a ∈ allAllocs st.schedule, a.hours = round2 a.exact
  alloc_name : ∀ a ∈ allAllocs st.schedule, a.name ∈ S
  exhaust : st.valveFired = false →
    (∀ s ∈ S, st.remaining s = 0) ∨ (S.map st.remaining).sum = hpd * ((D : ℚ) - k)

/-! ### Elementary facts about `round2` and the summation helpers -/

theorem abs_round2_sub (q : ℚ) : |round2 q - q| ≤ 1 / 200 := by
  have h1 : (Int.floor (q * 100 + 1 / 2) : ℚ) ≤ q * 100 + 1 / 2 := Int.floor_le _
  have h2 : q * 100 + 1 / 2 < (Int.floor (q * 100 + 1 / 2) : ℚ) + 1 := Int.lt_floor_add_one _
  rw [round2, abs_le]
  constructor <;> linarith

theorem sum_map_add_distrib {α : Type} (l : List α) (f g : α → ℚ) :
    (l.map fun x => f x + g x).sum = (l.map f).sum + (l.map g).sum := by
  induction l with
  | nil => simp
  | cons a t ih => simp only [List.map_cons, List.sum_cons, ih]; ring

theorem sum_map_congr {α : Type} {l : List α} {f g : α → ℚ} (h : ∀ x ∈ l, f x = g x) :
    (l.map f).sum = (l.map g).sum := by
  induction l with
  | nil => simp
  | cons a t ih =>
    simp only [List.map_cons, List.sum_cons]
    rw [h a (List.mem_cons_self a t), ih fun x hx => h x (List.mem_cons_of_mem a hx)]

theorem sum_map_const_of {α : Type} {l : List α} {f : α → ℚ} {c : ℚ}
    (h : ∀ x ∈ l, f x = c) : (l.map f).sum = l.length * c := by
  induction l with
  | nil => simp
  | cons a t ih =>
    simp only [List.map_cons, List.sum_cons, List.length_cons]
    rw [h a (List.mem_cons_self a t), ih fun x hx => h x (List.mem_cons_of_mem a hx)]
    push_cast
    ring

theorem sum_map_nonneg {α : Type} {l : List α} {f : α → ℚ}
    (h : ∀ x ∈ l, 0 ≤ f x) : 0 ≤ (l.map f).sum := by
  induction l with
  | nil => simp
  | cons a t ih =>
    simp only [List.map_cons, List.sum_cons]
    have := h a (List.mem_cons_self a t)
    have := ih fun x hx => h x (List.mem_cons_of_mem a hx)
    linarith

theorem eq_zero_of_sum_map_eq_zero {α : Type} {l : List α} {f : α → ℚ}
    (h0 : ∀ x ∈ l, 0 ≤ f x) (hs : (l.map f).sum = 0) : ∀ x ∈ l, f x = 0 := by
  induction l with
  | nil => simp
  | cons a t ih =>
    simp only [List.map_cons, List.sum_cons] at hs
    have ha : 0 ≤ f a := h0 a (List.mem_cons_self a t)
    have ht : ∀ x ∈ t, 0 ≤ f x := fun x hx => h0 x (List.mem_cons_of_mem a hx)
    have hts : 0 ≤ (t.map f).sum := sum_map_nonneg ht
    intro x hx
    rcases List.mem_cons.1 hx with rfl | hx
    · linarith
    · exact ih ht (by linarith) x hx

theorem sum_map_single {l : List String} (hnd : l.Nodup) {x : String} (hx : x ∈ l) (v : ℚ) :
    (l.map fun s => if x = s then v else 0).sum = v := by
  induction l with
  | nil => cases hx
  | cons a t ih =>
    have hna : a ∉ t := (List.nodup_cons.1 hnd).1
    have hnt := (List.nodup_cons.1 hnd).2
    simp only [List.map_cons, List.sum_cons]
    rcases List.mem_cons.1 hx with h1 | h1
    · subst h1
      rw [if_pos rfl]
      have hz : ∀ s ∈ t, (if x = s then v else 0) = 0 := by
        intro s hs
        rw [if_neg]
        rintro rfl
        exact hna hs
      rw [sum_map_congr hz, sum_map_const_of fun s _ => rfl]
      ring
    · have hxa : x ≠ a := fun he => hna (he ▸ h1)
      rw [if_neg hxa, ih hnt h1]
      ring

/-! ### Facts about the allocation sums -/

theorem esum_append (l t : List Allocation) : esum (l ++ t) = esum l + esum t := by
  simp [esum]

theorem rsum_append (l t : List Allocation) : rsum (l ++ t) = rsum l + rsum t := by
  simp [rsum]

theorem esumFor_append (s : String) (l t : List Allocation) :
    esumFor s (l ++ t) = esumFor s l + esumFor s t := by
  simp [esumFor]

theorem rsumFor_append (s : String) (l t : List Allocation) :
    rsumFor s (l ++ t) = rsumFor s l + rsumFor s t := by
  simp [rsumFor]

theorem esumFor_nonneg {l : List Allocation} (h : ∀ a ∈ l, 0 ≤ a.exact) (s : String) :
    0 ≤ esumFor s l := by
  refine sum_map_nonneg fun a ha => ?_
  by_cases hn : a.name = s
  · rw [if_pos hn]; exact h a ha
  · rw [if_neg hn]

/-- Splitting the exact total over a duplicate-free list of names that
covers every allocation. -/
theorem sum_esumFor_eq_esum {S : List String} (hnd : S.Nodup) {l : List Allocation}
    (hn : ∀ a ∈ l, a.name ∈ S) : (S.map fun s => esumFor s l).sum = esum l := by
  induction l with
  | nil => simp [esumFor, esum, sum_map_const_of]
  | cons a t ih =>
    have hat : ∀ b ∈ t, b.name ∈ S := fun b hb => hn b (List.mem_cons_of_mem a hb)
    have step : ∀ s ∈ S,
        esumFor s (a :: t) = (if a.name = s then a.exact else 0) + esumFor s t := by
      intro s _
      simp [esumFor]
    rw [sum_map_congr step, sum_map_add_distrib,
      sum_map_single hnd (hn a (List.mem_cons_self a t)) a.exact, ih hat]
    simp [esum]

/-- Each recorded value differs from its exact take by at most half a cent,
so a list of allocations is within `length / 200` of its exact total. -/
theorem abs_rsum_sub_esum {l : List Allocation}
    (h : ∀ a ∈ l, a.hours = round2 a.exact) : |rsum l - esum l| ≤ l.length / 200 := by
  induction l with
  | nil => simp [rsum, esum]
  | cons a t ih =>
    have ha := h a (List.mem_cons_self a t)
    have hsingle : |a.hours - a.exact| ≤ 1 / 200 := ha ▸ abs_round2_sub a.exact
    have ht := ih fun x hx => h x (List.mem_cons_of_mem a hx)
    have key : rsum (a :: t) - esum (a :: t) = (a.hours - a.exact) + (rsum t - esum t) := by
      simp [rsum, esum]; ring
    calc |rsum (a :: t) - esum (a :: t)|
        ≤ |a.hours - a.exact| + |rsum t - esum t| := by rw [key]; exact abs_add _ _
      _ ≤ 1 / 200 + t.length / 200 := by linarith
      _ = (a :: t).length / 200 := by
          simp only [List.length_cons]
          push_cast
          ring

/-- The per-subject analogue of `abs_rsum_sub_esum`. -/
theorem abs_rsumFor_sub_esumFor {l : List Allocation}
    (h : ∀ a ∈ l, a.hours = round2 a.exact) (s : String) :
    |rsumFor s l - esumFor s l| ≤ l.length / 200 := by
  induction l with
  | nil => simp [rsumFor, esumFor]
  | cons a t ih =>
    have ha := h a (List.mem_cons_self a t)
    have ht := ih fun x hx => h x (List.mem_cons_of_mem a hx)
    have hsingle : |(if a.name = s then a.hours else 0) - (if a.name = s then a.exact else 0)| ≤
        1 / 200 := by
      by_cases hn : a.name = s
      · rw [if_pos hn, if_pos hn]
        exact ha ▸ abs_round2_sub a.exact
      · rw [if_neg hn, if_neg hn]
        simp
    have key : rsumFor s (a :: t) - esumFor s (a :: t) =
        ((if a.name = s then a.hours else 0) - (if a.name = s then a.exact else 0)) +
          (rsumFor s t - esumFor s t) := by
      simp [rsumFor, esumFor]; ring
    calc |rsumFor s (a :: t) - esumFor s (a :: t)|
        ≤ |(if a.name = s then a.hours else 0) - (if a.name = s then a.exact else 0)| +
            |rsumFor s t - esumFor s t| := by rw [key]; exact abs_add _ _
      _ ≤ 1 / 200 + t.length / 200 := by linarith
      _ = (a :: t).length / 200 := by
          simp only [List.length_cons]
          push_cast
          ring

/-! ### Single-iteration lemmas for `allocStep` -/

theorem takeAmount_le_daily (S : List String) (st : InnerState) :
    takeAmount S st ≤ st.dailyRemaining := min_le_left _ _

theorem takeAmount_le_rem (S : List String) (st : InnerState) :
    takeAmount S st ≤ st.remaining (currentSubject S st) :=
  le_trans (min_le_right _ _) (min_le_left _ _)

theorem takeAmount_pos (S : List String) (st : InnerState)
    (h1 : 0 < st.dailyRemaining) (h2 : 0 < st.remaining (currentSubject S st)) :
    0 < takeAmount S st :=
  lt_min h1 (lt_min h2 (by norm_num))

theorem currentSubject_mem (S : List String) (hS : S ≠ []) (st : InnerState) :
    currentSubject S st ∈ S := by
  have hlen : 0 < S.length := List.length_pos.2 hS
  have hlt : st.subjectIndex % S.length < S.length := Nat.mod_lt _ hlen
  rw [currentSubject, List.getD_eq_getElem _ _ hlt]
  exact List.getElem_mem _

theorem allocStep_subjectIndex (S : List String) (st : InnerState) :
    (allocStep S st).subjectIndex = st.subjectIndex + 1 := by
  unfold allocStep
  split_ifs <;> rfl

theorem allocStep_valve (S : List String) (st : InnerState) :
    (allocStep S st).valveFired = st.valveFired := by
  unfold allocStep
  split_ifs <;> rfl

theorem allocStep_total (S : List String) (st : InnerState) :
    (allocStep S st).dayTotal + (allocStep S st).dailyRemaining =
      st.dayTotal + st.dailyRemaining := by
  unfold allocStep
  split_ifs with h1
  · dsimp only
    ring
  · rfl

theorem allocStep_daily_nonneg (S : List String) (st : InnerState)
    (h : 0 ≤ st.dailyRemaining) : 0 ≤ (allocStep S st).dailyRemaining := by
  unfold allocStep
  split_ifs with h1
  · dsimp only
    have := takeAmount_le_daily S st
    linarith
  · exact h

theorem allocStep_rem_nonneg (S : List String) (st : InnerState)
    (h : ∀ s, 0 ≤ st.remaining s) : ∀ s, 0 ≤ (allocStep S st).remaining s := by
  unfold allocStep
  split_ifs with h1
  · intro s
    dsimp only
    split_ifs with h2
    · rw [h2]
      have := takeAmount_le_rem S st
      linarith
    · exact h s
  · exact h

theorem allocStep_acct (S : List String) (st : InnerState) (s : String) :
    (allocStep S st).remaining s + esumFor s (allocStep S st).allocs =
      st.remaining s + esumFor s st.allocs := by
  unfold allocStep
  split_ifs with h1
  · dsimp only
    rw [esumFor_append]
    by_cases h2 : s = currentSubject S st
    · rw [if_pos h2]
      have hnew : esumFor s [⟨currentSubject S st, round2 (takeAmount S st), takeAmount S st⟩] =
          takeAmount S st := by
        simp [esumFor, h2.symm]
      rw [hnew, h2]
      ring
    · rw [if_neg h2]
      have hnew : esumFor s [⟨currentSubject S st, round2 (takeAmount S st), takeAmount S st⟩] =
          0 := by
        simp [esumFor]
        intro hc
        exact absurd hc.symm h2
      rw [hnew]
      ring
  · rfl

theorem allocStep_esum (S : List String) (st : InnerState) :
    (allocStep S st).dayTotal - esum (allocStep S st).allocs =
      st.dayTotal - esum st.allocs := by
  unfold allocStep
  split_ifs with h1
  · dsimp only
    rw [esum_append]
    simp only [esum, List.map_cons, List.map_nil, List.sum_cons, List.sum_nil]
    ring
  · rfl

theorem allocStep_rounds (S : List String) (st : InnerState)
    (h : ∀ a ∈ st.allocs, a.hours = round2 a.exact) :
    ∀ a ∈ (allocStep S st).allocs, a.hours = round2 a.exact := by
  unfold allocStep
  split_ifs with h1
  · intro a ha
    dsimp only at ha
    rcases List.mem_append.1 ha with ha | ha
    · exact h a ha
    · rw [List.mem_singleton.1 ha]
  · exact h

theorem allocStep_names (S : List String) (st : InnerState) (hS : S ≠ [])
    (h : ∀ a ∈ st.allocs, a.name ∈ S) :
    ∀ a ∈ (allocStep S st).allocs, a.name ∈ S := by
  unfold allocStep
  split_ifs with h1
  · intro a ha
    dsimp only at ha
    rcases List.mem_append.1 ha with ha | ha
    · exact h a ha
    · rw [List.mem_singleton.1 ha]
      exact currentSubject_mem S hS st
  · exact h

theorem allocStep_pos (S : List String) (st : InnerState) (hd : 0 < st.dailyRemaining)
    (h : ∀ a ∈ st.allocs, 0 < a.exact) :
    ∀ a ∈ (allocStep S st).allocs, 0 < a.exact := by
  unfold allocStep
  split_ifs with h1
  · intro a ha
    dsimp only at ha
    rcases List.mem_append.1 ha with ha | ha
    · exact h a ha
    · rw [List.mem_singleton.1 ha]
      exact takeAmount_pos S st hd h1
  · exact h

/-! ### Invariants of the inner loop `fillDay` -/

theorem fillDay_total (S : List String) (N : ℕ) :
    ∀ fuel st, (fillDay S N fuel st).dayTotal + (fillDay S N fuel st).dailyRemaining =
      st.dayTotal + st.dailyRemaining := by
  intro fuel
  induction fuel with
  | zero => intro st; rfl
  | succ f ih =>
    intro st
    simp only [fillDay]
    split_ifs with h1 h2 h3
    · exact allocStep_total S st
    · exact allocStep_total S st
    · exact (ih (allocStep S st)).trans (allocStep_total S st)
    · rfl

theorem fillDay_daily_nonneg (S : List String) (N : ℕ) :
    ∀ fuel st, 0 ≤ st.dailyRemaining → 0 ≤ (fillDay S N fuel st).dailyRemaining := by
  intro fuel
  induction fuel with
  | zero => intro st h; exact h
  | succ f ih =>
    intro st h
    simp only [fillDay]
    split_ifs with h1 h2 h3
    · exact allocStep_daily_nonneg S st h
    · exact allocStep_daily_nonneg S st h
    · exact ih (allocStep S st) (allocStep_daily_nonneg S st h)
    · exact h

theorem fillDay_rem_nonneg (S : List String) (N : ℕ) :
    ∀ fuel st, (∀ s, 0 ≤ st.remaining s) → ∀ s, 0 ≤ (fillDay S N fuel st).remaining s := by
  intro fuel
  induction fuel with
  | zero => intro st h; exact h
  | succ f ih =>
    intro st h
    simp only [fillDay]
    split_ifs with h1 h2 h3
    · exact allocStep_rem_nonneg S st h
    · exact allocStep_rem_nonneg S st h
    · exact ih (allocStep S st) (allocStep_rem_nonneg S st h)
    · exact h

theorem fillDay_acct (S : List String) (N : ℕ) :
    ∀ fuel st s, (fillDay S N fuel st).remaining s + esumFor s (fillDay S N fuel st).allocs =
      st.remaining s + esumFor s st.allocs := by
  intro fuel
  induction fuel with
  | zero => intro st s; rfl
  | succ f ih =>
    intro st s
    simp only [fillDay]
    split_ifs with h1 h2 h3
    · exact allocStep_acct S st s
    · exact allocStep_acct S st s
    · exact (ih (allocStep S st) s).trans (allocStep_acct S st s)
    · rfl

theorem fillDay_esum (S : List String) (N : ℕ) :
    ∀ fuel st, (fillDay S N fuel st).dayTotal - esum (fillDay S N fuel st).allocs =
      st.dayTotal - esum st.allocs := by
  intro fuel
  induction fuel with
  | zero => intro st; rfl
  | succ f ih =>
    intro st
    simp only [fillDay]
    split_ifs with h1 h2 h3
    · exact allocStep_esum S st
    · exact allocStep_esum S st
    · exact (ih (allocStep S st)).trans (allocStep_esum S st)
    · rfl

theorem fillDay_rounds (S : List String) (N : ℕ) :
    ∀ fuel st, (∀ a ∈ st.allocs, a.hours = round2 a.exact) →
      ∀ a ∈ (fillDay S N fuel st).allocs, a.hours = round2 a.exact := by
  intro fuel
  induction fuel with
  | zero => intro st h; exact h
  | succ f ih =>
    intro st h
    simp only [fillDay]
    split_ifs with h1 h2 h3
    · exact allocStep_rounds S st h
    · exact allocStep_rounds S st h
    · exact ih (allocStep S st) (allocStep_rounds S st h)
    · exact h

theorem fillDay_names (S : List String) (N : ℕ) (hS : S ≠ []) :
    ∀ fuel st, (∀ a ∈ st.allocs, a.name ∈ S) →
      ∀ a ∈ (fillDay S N fuel st).allocs, a.name ∈ S := by
  intro fuel
  induction fuel with
  | zero => intro st h; exact h
  | succ f ih =>
    intro st h
    simp only [fillDay]
    split_ifs with h1 h2 h3
    · exact allocStep_names S st hS h
    · exact allocStep_names S st hS h
    · exact ih (allocStep S st) (allocStep_names S st hS h)
    · exact h

theorem fillDay_pos (S : List String) (N : ℕ) :
    ∀ fuel st, (∀ a ∈ st.allocs, 0 < a.exact) →
      ∀ a ∈ (fillDay S N fuel st).allocs, 0 < a.exact := by
  intro fuel
  induction fuel with
  | zero => intro st h; exact h
  | succ f ih =>
    intro st h
    simp only [fillDay]
    split_ifs with h1 h2 h3
    · exact allocStep_pos S st h1 h
    · exact allocStep_pos S st h1 h
    · exact ih (allocStep S st) (allocStep_pos S st h1 h)
    · exact h

theorem fillDay_valve_mono (S : List String) (N : ℕ) :
    ∀ fuel st, st.valveFired = true → (fillDay S N fuel st).valveFired = true := by
  intro fuel
  induction fuel with
  | zero => intro st h; exact h
  | succ f ih =>
    intro st h
    simp only [fillDay]
    split_ifs with h1 h2 h3
    · exact (allocStep_valve S st).trans h
    · rfl
    · exact ih (allocStep S st) ((allocStep_valve S st).trans h)
    · exact h

/-- With no valve break in the result, the input flag was already clear. -/
theorem fillDay_valve_back (S : List String) (N : ℕ) (fuel : ℕ) (st : InnerState)
    (h : (fillDay S N fuel st).valveFired = false) : st.valveFired = false := by
  by_contra hc
  have hst : st.valveFired = true := by
    cases hsv : st.valveFired
    · exact absurd hsv hc
    · rfl
  rw [fillDay_valve_mono S N fuel st hst] at h
  cases h

/-- The inner loop always ends through one of its three real exits
(daily budget exhausted, all subjects exhausted, or the safety valve),
never by running out of fuel, as long as at least `N + 2 - subjectIndex`
fuel is supplied. -/
theorem fillDay_exit (S : List String) (N : ℕ) :
    ∀ fuel st, 1 ≤ fuel → N + 2 ≤ st.subjectIndex + fuel →
      ¬ 0 < (fillDay S N fuel st).dailyRemaining ∨
        (∀ s ∈ S, (fillDay S N fuel st).remaining s ≤ 0) ∨
        (fillDay S N fuel st).valveFired = true := by
  intro fuel
  induction fuel with
  | zero => intro st h1 h2; omega
  | succ f ih =>
    intro st hf hb
    simp only [fillDay]
    split_ifs with h1 h2 h3
    · refine Or.inr (Or.inl fun s hs => ?_)
      exact of_decide_eq_true (List.all_eq_true.1 h2 s hs)
    · exact Or.inr (Or.inr rfl)
    · have hidx : (allocStep S st).subjectIndex = st.subjectIndex + 1 :=
        allocStep_subjectIndex S st
      have hle : (allocStep S st).subjectIndex ≤ N := by omega
      exact ih (allocStep S st) (by omega) (by omega)
    · exact Or.inl h1

/-- Past the point where the safety valve must break, the result of the
inner loop does not depend on the exact amount of fuel: the fuel is a
structural-recursion device, not part of the modelled behaviour. -/
theorem fillDay_fuel_stable (S : List String) (N : ℕ) :
    ∀ fuel st, 1 ≤ fuel → N + 2 ≤ st.subjectIndex + fuel →
      fillDay S N (fuel + 1) st = fillDay S N fuel st := by
  intro fuel
  induction fuel with
  | zero => intro st h1 h2; omega
  | succ f ih =>
    intro st hf hb
    conv_lhs => rw [fillDay]
    conv_rhs => rw [fillDay]
    split_ifs with h1 h2 h3
    · rfl
    · rfl
    · have hidx : (allocStep S st).subjectIndex = st.subjectIndex + 1 :=
        allocStep_subjectIndex S st
      have hle : (allocStep S st).subjectIndex ≤ N := by omega
      exact ih (allocStep S st) (by omega) (by omega)
    · rfl

/-! ### The outer day loop -/

/-- Closed form of the `remainingHours` initialisation (script.js 113-116):
listed subjects get the equal share, absent keys read `0`. -/
theorem remaining0_eq (S : List String) (hpd : ℚ) (D : ℕ) (s : String) :
    remaining0 S hpd D s = if s ∈ S then hoursPerSubject S hpd D else 0 := by
  suffices h : ∀ (l : List String) (f : String → ℚ),
      (l.foldl (fun f x => fun s' => if s' = x then hoursPerSubject S hpd D else f s') f) s =
        if s ∈ l then hoursPerSubject S hpd D else f s by
    simpa [remaining0] using h S (fun _ => 0)
  intro l
  induction l with
  | nil => intro f; simp
  | cons a t ih =>
    intro f
    simp only [List.foldl_cons]
    rw [ih]
    by_cases hmem : s ∈ t
    · simp [hmem, List.mem_cons]
    · by_cases hsa : s = a
      · simp [hmem, hsa]
      · simp [hmem, hsa, List.mem_cons]

theorem allAllocs_append (l t : List DayPlan) :
    allAllocs (l ++ t) = allAllocs l ++ allAllocs t := by
  simp [allAllocs]

theorem allAllocs_single (dp : DayPlan) : allAllocs [dp] = dp.subjects := by
  simp [allAllocs]

/-- Peeling the last processed day off the outer loop. -/
theorem runDays_succ (S : List String) (hpd : ℚ) (N : ℕ) :
    ∀ k day st, runDays S hpd N (k + 1) day st =
      dayStep S N hpd (day + k) (runDays S hpd N k day st) := by
  intro k
  induction k with
  | zero => intro day st; rfl
  | succ k ih =>
    intro day st
    show runDays S hpd N (k + 1) (day + 1) (dayStep S N hpd day st) =
      dayStep S N hpd (day + (k + 1)) (runDays S hpd N (k + 1) day st)
    rw [ih]
    rw [show day + 1 + k = day + (k + 1) by omega]
    rfl

/-- Auxiliary form of the invariant preservation, over an arbitrary inner
result `r` (to be instantiated with the `fillDay` output of a day). -/
theorem OuterInv_push (S : List String) (hpd : ℚ) (D k day : ℕ) (st : OuterState)
    (r : InnerState) (hnd : S.Nodup) (inv : OuterInv S hpd D k st)
    (hF1 : r.dayTotal + r.dailyRemaining = hpd)
    (hF2 : 0 ≤ r.dailyRemaining)
    (hF3 : ∀ s, 0 ≤ r.remaining s)
    (hF4 : ∀ s, r.remaining s + esumFor s r.allocs = st.remaining s)
    (hF5 : esum r.allocs = r.dayTotal)
    (hF6 : ∀ a ∈ r.allocs, a.hours = round2 a.exact)
    (hF7 : ∀ a ∈ r.allocs, a.name ∈ S)
    (hF12 : ∀ a ∈ r.allocs, 0 < a.exact)
    (hexit : r.valveFired = false →
      ¬ 0 < r.dailyRemaining ∨ (∀ s ∈ S, r.remaining s ≤ 0))
    (hback : r.valveFired = false → st.valveFired = false) :
    OuterInv S hpd D (k + 1)
      ⟨r.remaining, r.subjectIndex,
        (if r.allocs = [] then st.schedule
          else st.schedule ++ [⟨day, r.allocs, round2 r.dayTotal⟩]),
        r.valveFired⟩ := by
  constructor
  case rem_nonneg => exact hF3
  case rem_acct =>
    intro s
    dsimp only
    by_cases hempty : r.allocs = []
    · rw [if_pos hempty]
      have h4 := hF4 s
      rw [hempty] at h4
      simp only [esumFor, List.map_nil, List.sum_nil, add_zero] at h4
      rw [h4]
      exact inv.rem_acct s
    · rw [if_neg hempty, allAllocs_append, esumFor_append, allAllocs_single]
      have h4 := hF4 s
      have hacct := inv.rem_acct s
      dsimp only at h4 ⊢
      linarith
  case day_total =>
    intro dp hdp
    dsimp only at hdp
    by_cases hempty : r.allocs = []
    · rw [if_pos hempty] at hdp
      exact inv.day_total dp hdp
    · rw [if_neg hempty] at hdp
      rcases List.mem_append.1 hdp with h | h
      · exact inv.day_total dp h
      · rw [List.mem_singleton.1 h]
        dsimp only
        rw [hF5]
  case day_cap =>
    intro dp hdp
    dsimp only at hdp
    by_cases hempty : r.allocs = []
    · rw [if_pos hempty] at hdp
      exact inv.day_cap dp hdp
    · rw [if_neg hempty] at hdp
      rcases List.mem_append.1 hdp with h | h
      · exact inv.day_cap dp h
      · rw [List.mem_singleton.1 h]
        dsimp only
        rw [hF5]
        linarith
  case alloc_round =>
    intro a ha
    dsimp only at ha
    by_cases hempty : r.allocs = []
    · rw [if_pos hempty] at ha
      exact inv.alloc_round a ha
    · rw [if_neg hempty, allAllocs_append, allAllocs_single] at ha
      rcases List.mem_append.1 ha with h | h
      · exact inv.alloc_round a h
      · exact hF6 a h
  case alloc_name =>
    intro a ha
    dsimp only at ha
    by_cases hempty : r.allocs = []
    · rw [if_pos hempty] at ha
      exact inv.alloc_name a ha
    · rw [if_neg hempty, allAllocs_append, allAllocs_single] at ha
      rcases List.mem_append.1 ha with h | h
      · exact inv.alloc_name a h
      · exact hF7 a h
  case exhaust =>
    intro hv
    dsimp only at hv ⊢
    rcases inv.exhaust (hback hv) with hall | hsum
    · left
      intro s hs
      have h4 := hF4 s
      have h0 : st.remaining s = 0 := hall s hs
      have hnn := hF3 s
      have hes : 0 ≤ esumFor s r.allocs := esumFor_nonneg (fun a ha => (hF12 a ha).le) s
      linarith
    · rcases hexit hv with hdz | hex
      · right
        have hd0 : r.dailyRemaining = 0 := le_antisymm (not_lt.1 hdz) hF2
        have hdt : r.dayTotal = hpd := by linarith
        have hcong : (S.map fun s => r.remaining s + esumFor s r.allocs).sum =
            (S.map st.remaining).sum := sum_map_congr fun s _ => hF4 s
        have hadd : (S.map fun s => r.remaining s + esumFor s r.allocs).sum =
            (S.map r.remaining).sum + (S.map fun s => esumFor s r.allocs).sum :=
          sum_map_add_distrib S r.remaining fun s => esumFor s r.allocs
        have hsplit : (S.map fun s => esumFor s r.allocs).sum = esum r.allocs :=
          sum_esumFor_eq_esum hnd hF7
        calc (S.map r.remaining).sum
            = (S.map st.remaining).sum - esum r.allocs := by
              rw [← hcong, hadd, hsplit]; ring
          _ = hpd * ((D : ℚ) - k) - hpd := by rw [hsum, hF5, hdt]
          _ = hpd * ((D : ℚ) - (k + 1 : ℕ)) := by push_cast; ring
      · left
        intro s hs
        exact le_antisymm (hex s hs) (hF3 s)

/-- One day of the outer loop preserves the invariant. -/
theorem OuterInv_dayStep (S : List String) (hpd : ℚ) (D k day N : ℕ) (st : OuterState)
    (hS : S ≠ []) (hnd : S.Nodup) (hh : 0 < hpd) (inv : OuterInv S hpd D k st) :
    OuterInv S hpd D (k + 1) (dayStep S N hpd day st) := by
  have hnil : ∀ a ∈ ([] : List Allocation), False := fun a ha => (List.not_mem_nil a ha).elim
  refine OuterInv_push S hpd D k day st (fillDay S N (N + 2) (dayInit hpd st)) hnd inv
    ?_ ?_ ?_ ?_ ?_ ?_ ?_ ?_ ?_ ?_
  · have h := fillDay_total S N (N + 2) (dayInit hpd st)
    simpa [dayInit] using h
  · exact fillDay_daily_nonneg S N (N + 2) (dayInit hpd st) hh.le
  · exact fillDay_rem_nonneg S N (N + 2) (dayInit hpd st) inv.rem_nonneg
  · intro s
    have h := fillDay_acct S N (N + 2) (dayInit hpd st) s
    have h0 : esumFor s (dayInit hpd st).allocs = 0 := by
      simp [dayInit, esumFor]
    rw [h0, add_zero] at h
    exact h
  · have h := fillDay_esum S N (N + 2) (dayInit hpd st)
    have h0 : (dayInit hpd st).dayTotal - esum (dayInit hpd st).allocs = 0 := by
      simp [dayInit, esum]
    rw [h0] at h
    linarith
  · exact fillDay_rounds S N (N + 2) (dayInit hpd st) fun a ha => (hnil a ha).elim
  · exact fillDay_names S N hS (N + 2) (dayInit hpd st) fun a ha => (hnil a ha).elim
  · exact fillDay_pos S N (N + 2) (dayInit hpd st) fun a ha => (hnil a ha).elim
  · intro hv
    rcases fillDay_exit S N (N + 2) (dayInit hpd st) (by omega) (Nat.le_add_left _ _) with
      h | h | h
    · exact Or.inl h
    · exact Or.inr h
    · rw [hv] at h
      cases h
  · exact fillDay_valve_back S N (N + 2) (dayInit hpd st)

/-- The invariant holds on entry of the outer loop. -/
theorem OuterInv_init (S : List String) (hpd : ℚ) (D : ℕ) (hS : S ≠ []) (hh : 0 < hpd) :
    OuterInv S hpd D 0 (initState S hpd D) := by
  have hlen : (S.length : ℚ) ≠ 0 :=
    Nat.cast_ne_zero.2 fun h0 => hS (List.length_eq_zero.1 h0)
  have hps : 0 ≤ hoursPerSubject S hpd D := by
    unfold hoursPerSubject
    positivity
  constructor
  case rem_nonneg =>
    intro s
    show 0 ≤ remaining0 S hpd D s
    rw [remaining0_eq]
    split_ifs
    · exact hps
    · exact le_refl 0
  case rem_acct =>
    intro s
    show remaining0 S hpd D s + esumFor s (allAllocs []) = remaining0 S hpd D s
    simp [allAllocs, esumFor]
  case day_total => intro dp hdp; exact (List.not_mem_nil dp hdp).elim
  case day_cap => intro dp hdp; exact (List.not_mem_nil dp hdp).elim
  case alloc_round => intro a ha; exact (List.not_mem_nil a ha).elim
  case alloc_name => intro a ha; exact (List.not_mem_nil a ha).elim
  case exhaust =>
    intro _
    right
    have hmem : ∀ s ∈ S, remaining0 S hpd D s = hoursPerSubject S hpd D := by
      intro s hs
      rw [remaining0_eq, if_pos hs]
    show (S.map (remaining0 S hpd D)).sum = hpd * ((D : ℚ) - (0 : ℕ))
    rw [sum_map_const_of hmem]
    unfold hoursPerSubject
    field_simp

/-- The invariant after any number of processed days. -/
theorem OuterInv_runUpTo (S : List String) (hpd : ℚ) (D : ℕ)
    (hS : S ≠ []) (hnd : S.Nodup) (hh : 0 < hpd) :
    ∀ k, OuterInv S hpd D k (runUpTo S hpd D k) := by
  intro k
  induction k with
  | zero => exact OuterInv_init S hpd D hS hh
  | succ k ih =>
    have hstep : runUpTo S hpd D (k + 1) =
        dayStep S (valveBound S D) hpd (1 + k) (runUpTo S hpd D k) :=
      runDays_succ S hpd (valveBound S D) k 1 (initState S hpd D)
    rw [hstep]
    exact OuterInv_dayStep S hpd D k (1 + k) (valveBound S D) (runUpTo S hpd D k) hS hnd hh ih

/-! ### Consequences for the complete run -/

theorem calcRun_inv (S : List String) (hpd : ℚ) (D : ℕ)
    (hS : S ≠ []) (hnd : S.Nodup) (hh : 0 < hpd) :
    OuterInv S hpd D D (calcRun S hpd D) :=
  OuterInv_runUpTo S hpd D hS hnd hh D

/-- When the safety valve never fired, every subject's budget is exactly
exhausted at the end of the run. -/
theorem calcRun_rem_zero (S : List String) (hpd : ℚ) (D : ℕ)
    (hS : S ≠ []) (hnd : S.Nodup) (hh : 0 < hpd)
    (hv : (calcRun S hpd D).valveFired = false) :
    ∀ s ∈ S, (calcRun S hpd D).remaining s = 0 := by
  have inv := calcRun_inv S hpd D hS hnd hh
  rcases inv.exhaust hv with hall | hsum
  · exact hall
  · have h0 : (S.map (calcRun S hpd D).remaining).sum = 0 := by
      rw [hsum, sub_self, mul_zero]
    exact eq_zero_of_sum_map_eq_zero (fun s _ => inv.rem_nonneg s) h0

/-- When the safety valve never fired, each listed subject received
exactly its equal share, counted with exact (unrounded) takes. -/
theorem calcRun_esumFor (S : List String) (hpd : ℚ) (D : ℕ)
    (hS : S ≠ []) (hnd : S.Nodup) (hh : 0 < hpd)
    (hv : (calcRun S hpd D).valveFired = false) {s : String} (hs : s ∈ S) :
    esumFor s (allAllocs (calcRun S hpd D).schedule) = hoursPerSubject S hpd D := by
  have inv := calcRun_inv S hpd D hS hnd hh
  have hz := calcRun_rem_zero S hpd D hS hnd hh hv s hs
  have hacct := inv.rem_acct s
  have h0 := remaining0_eq S hpd D s
  rw [if_pos hs] at h0
  rw [hz, zero_add] at hacct
  rw [hacct, h0]

/-- When the safety valve never fired, the exact takes over the whole run
add up to precisely `hoursPerDay * totalDays`. -/
theorem calcRun_esum_total (S : List String) (hpd : ℚ) (D : ℕ)
    (hS : S ≠ []) (hnd : S.Nodup) (hh : 0 < hpd)
    (hv : (calcRun S hpd D).valveFired = false) :
    esum (allAllocs (calcRun S hpd D).schedule) = hpd * D := by
  have inv := calcRun_inv S hpd D hS hnd hh
  have hlen : (S.length : ℚ) ≠ 0 :=
    Nat.cast_ne_zero.2 fun h0 => hS (List.length_eq_zero.1 h0)
  have hsplit := sum_esumFor_eq_esum hnd inv.alloc_name
  have hconst : ∀ s ∈ S,
      esumFor s (allAllocs (calcRun S hpd D).schedule) = hoursPerSubject S hpd D :=
    fun s hs => calcRun_esumFor S hpd D hS hnd hh hv hs
  rw [← hsplit, sum_map_const_of hconst]
  unfold hoursPerSubject
  field_simp

theorem mem_allAllocs {sched : List DayPlan} {dp : DayPlan} {a : Allocation}
    (hdp : dp ∈ sched) (ha : a ∈ dp.subjects) : a ∈ allAllocs sched := by
  unfold allAllocs
  rw [List.mem_flatten]
  exact ⟨dp.subjects, List.mem_map_of_mem _ hdp, ha⟩

/-! ### Degenerate run on the empty subject list (script.js lines 133-181
with `subjects = []`: `subjects[NaN]` is `undefined`, `undefined > 0` is
false, and `[].every(...)` is true, so each day's loop breaks at once). -/

theorem allocStep_skip (S : List String) (st : InnerState)
    (h : ¬ 0 < st.remaining (currentSubject S st)) :
    allocStep S st = { st with subjectIndex := st.subjectIndex + 1 } := by
  unfold allocStep
  rw [if_neg h]

theorem fillDay_nil (N : ℕ) : ∀ fuel st, st.remaining "" ≤ 0 →
    (fillDay [] N fuel st).allocs = st.allocs ∧
      (fillDay [] N fuel st).remaining = st.remaining := by
  intro fuel st h
  have hcur : currentSubject [] st = "" := rfl
  have hskip : allocStep [] st = { st with subjectIndex := st.subjectIndex + 1 } :=
    allocStep_skip [] st (by rw [hcur]; exact not_lt.2 h)
  cases fuel with
  | zero => exact ⟨rfl, rfl⟩
  | succ f =>
    simp only [fillDay]
    split_ifs with h1 h2 h3
    · rw [hskip]
      exact ⟨rfl, rfl⟩
    · exact absurd rfl h2
    · exact absurd rfl h2
    · exact ⟨rfl, rfl⟩

theorem dayStep_nil (N : ℕ) (hpd : ℚ) (day : ℕ) (st : OuterState)
    (h : st.remaining "" ≤ 0) :
    (dayStep [] N hpd day st).schedule = st.schedule ∧
      (dayStep [] N hpd day st).remaining = st.remaining := by
  have hfd := fillDay_nil N (N + 2) (dayInit hpd st) h
  constructor
  · show (if (fillDay [] N (N + 2) (dayInit hpd st)).allocs = [] then st.schedule
        else st.schedule ++
          [⟨day, (fillDay [] N (N + 2) (dayInit hpd st)).allocs,
            round2 (fillDay [] N (N + 2) (dayInit hpd st)).dayTotal⟩]) = st.schedule
    rw [hfd.1]
    simp [dayInit]
  · show (fillDay [] N (N + 2) (dayInit hpd st)).remaining = st.remaining
    exact hfd.2

theorem runDays_nil (hpd : ℚ) (N : ℕ) : ∀ k day st, st.remaining "" ≤ 0 →
    (runDays [] hpd N k day st).schedule = st.schedule := by
  intro k
  induction k with
  | zero => intro day st _; rfl
  | succ k ih =>
    intro day st h
    show (runDays [] hpd N k (day + 1) (dayStep [] N hpd day st)).schedule = st.schedule
    have hd := dayStep_nil N hpd day st h
    rw [ih (day + 1) _ (by rw [hd.2]; exact h), hd.1]

/-! ### The claims -/

/-- C1, counterexample to the claim as stated: on the valid input
`subjects = ["A"]`, `hoursPerDay = 24`, `totalDays = 1` the safety valve
(script.js line 171) fires after 11 sessions, so only 22 of the 24 hours
are scheduled and conservation fails far beyond the rounding tolerance
`0.01 × 11`. -/
theorem conservation_claim_cex :
    ¬ (|rsum (allAllocs (calculateStudyPlan ["A"] 24 1)) - 24 * 1| ≤
      (allocCount (calculateStudyPlan ["A"] 24 1) : ℚ) / 100) := by decide

/-- C1 (amended): on every valid input on which the safety-valve break is
not taken, the sum of the recorded (2-decimal-rounded) `hours` values over
all Allocations of all DayPlans differs from `hoursPerDay × totalDays` by
at most `0.01 ×` (number of Allocations). -/
theorem conservation_no_valve (S : List String) (hpd : ℚ) (D : ℕ)
    (h1 : S ≠ []) (h2 : S.Nodup) (h3 : ∀ s ∈ S, s ≠ "") (h4 : 0 < hpd) (h5 : hpd ≤ 24)
    (h6 : 1 ≤ D) (hv : (calcRun S hpd D).valveFired = false) :
    |rsum (allAllocs (calculateStudyPlan S hpd D)) - hpd * D| ≤
      (allocCount (calculateStudyPlan S hpd D) : ℚ) / 100 := by
  have inv := calcRun_inv S hpd D h1 h2 h4
  have htot := calcRun_esum_total S hpd D h1 h2 h4 hv
  have hbound := abs_rsum_sub_esum inv.alloc_round
  rw [htot] at hbound
  have hlen : (0 : ℚ) ≤ ((allAllocs (calcRun S hpd D).schedule).length : ℚ) :=
    Nat.cast_nonneg _
  show |rsum (allAllocs (calcRun S hpd D).schedule) - hpd * D| ≤
    ((allAllocs (calcRun S hpd D).schedule).length : ℚ) / 100
  linarith

/-- C1 witness: the amended conservation statement at
`subjects = ["A"]`, `hoursPerDay = 2`, `totalDays = 1`. -/
theorem conservation_no_valve_witness :
    (calcRun ["A"] 2 1).valveFired = false ∧
      |rsum (allAllocs (calculateStudyPlan ["A"] 2 1)) - 2 * 1| ≤
        (allocCount (calculateStudyPlan ["A"] 2 1) : ℚ) / 100 :=
  ⟨by decide, conservation_no_valve ["A"] 2 1 (by decide) (by decide) (by decide)
    (by decide) (by decide) (by decide) (by decide)⟩

/-- C2, counterexample to the claim as stated: on the valid input
`subjects = ["A"]`, `hoursPerDay = 24`, `totalDays = 2` the safety valve
fires on day 2, subject "A" receives 42 of its 48 budgeted hours, and the
equal-share bound fails beyond the tolerance `0.01 × 21`. -/
theorem equal_share_claim_cex :
    ¬ (|rsumFor "A" (allAllocs (calculateStudyPlan ["A"] 24 2)) -
        24 * 2 / ((["A"] : List String).length : ℚ)| ≤
      (allocCount (calculateStudyPlan ["A"] 24 2) : ℚ) / 100) := by decide

/-- C2 (amended): on every valid input on which the safety-valve break is
not taken, each listed subject's recorded hours across the whole Schedule
differ from `hoursPerDay × totalDays / |subjects|` by at most
`0.01 ×` (number of Allocations). -/
theorem equal_share_no_valve (S : List String) (hpd : ℚ) (D : ℕ) (s : String)
    (h1 : S ≠ []) (h2 : S.Nodup) (h4 : 0 < hpd) (h5 : hpd ≤ 24) (h6 : 1 ≤ D)
    (hs : s ∈ S) (hv : (calcRun S hpd D).valveFired = false) :
    |rsumFor s (allAllocs (calculateStudyPlan S hpd D)) - hpd * D / (S.length : ℚ)| ≤
      (allocCount (calculateStudyPlan S hpd D) : ℚ) / 100 := by
  have inv := calcRun_inv S hpd D h1 h2 h4
  have hesF := calcRun_esumFor S hpd D h1 h2 h4 hv hs
  have hbound := abs_rsumFor_sub_esumFor inv.alloc_round s
  rw [hesF] at hbound
  unfold hoursPerSubject at hbound
  have hlen : (0 : ℚ) ≤ ((allAllocs (calcRun S hpd D).schedule).length : ℚ) :=
    Nat.cast_nonneg _
  show |rsumFor s (allAllocs (calcRun S hpd D).schedule) - hpd * D / (S.length : ℚ)| ≤
    ((allAllocs (calcRun S hpd D).schedule).length : ℚ) / 100
  linarith

/-- C2 witness: the amended equal-share statement at
`subjects = ["A"]`, `hoursPerDay = 2`, `totalDays = 1`, subject "A". -/
theorem equal_share_no_valve_witness :
    (calcRun ["A"] 2 1).valveFired = false ∧
      |rsumFor "A" (allAllocs (calculateStudyPlan ["A"] 2 1)) -
          2 * 1 / ((["A"] : List String).length : ℚ)| ≤
        (allocCount (calculateStudyPlan ["A"] 2 1) : ℚ) / 100 :=
  ⟨by decide, equal_share_no_valve ["A"] 2 1 "A" (by decide) (by decide) (by decide)
    (by decide) (by decide) (by decide) (by decide)⟩

/-- C3, counterexample to the claim as stated: on the valid input
`subjects = ["A","B","C"]`, `hoursPerDay = 1`, `totalDays = 1` each
recorded allocation is `0.33`, so the rounded sum of the recorded values is
`0.99`, but the code computes `totalHours = 1` (it accumulates the
unrounded takes, script.js line 156, and rounds once at line 178). -/
theorem rounding_policy_claim_cex :
    ¬ (∀ dp ∈ calculateStudyPlan ["A", "B", "C"] 1 1,
        dp.totalHours = round2 (rsum dp.subjects)) := by decide

/-- C3 (amended): for every valid input, each DayPlan's `totalHours` is the
exact (unrounded) sum of that day's takes, rounded once to 2 decimals —
not the rounded sum of the already-rounded recorded values. -/
theorem day_total_from_exact (S : List String) (hpd : ℚ) (D : ℕ)
    (h1 : S ≠ []) (h2 : S.Nodup) (h4 : 0 < hpd) (h5 : hpd ≤ 24) (h6 : 1 ≤ D)
    (dp : DayPlan) (hdp : dp ∈ calculateStudyPlan S hpd D) :
    dp.totalHours = round2 (esum dp.subjects) :=
  (calcRun_inv S hpd D h1 h2 h4).day_total dp hdp

/-- C3 witness: the amended day-total statement at
`subjects = ["A"]`, `hoursPerDay = 2`, `totalDays = 1`. -/
theorem day_total_from_exact_witness :
    (⟨1, [⟨"A", 2, 2⟩], 2⟩ : DayPlan) ∈ calculateStudyPlan ["A"] 2 1 ∧
      (⟨1, [⟨"A", 2, 2⟩], 2⟩ : DayPlan).totalHours =
        round2 (esum (⟨1, [⟨"A", 2, 2⟩], 2⟩ : DayPlan).subjects) :=
  ⟨by decide, day_total_from_exact ["A"] 2 1 (by decide) (by decide) (by decide)
    (by decide) (by decide) _ (by decide)⟩

/-- C4, counterexample to the claim as stated: on the valid input
`subjects = ["A","B","C"]`, `hoursPerDay = 5.988`, `totalDays = 1` each
exact take is `1.996`, recorded as `2.00`, so the recorded hours of day 1
add up to `6 > 5.988 = hoursPerDay`. -/
theorem daily_cap_claim_cex :
    ¬ (∀ dp ∈ calculateStudyPlan ["A", "B", "C"] (1497 / 250) 1,
        rsum dp.subjects ≤ 1497 / 250) := by decide

/-- C4 (amended): for every valid input and every DayPlan, the sum of the
recorded (rounded) allocation hours exceeds `hoursPerDay` by at most the
accumulated rounding slack `0.005 ×` (that day's number of Allocations);
the exact takes themselves never exceed `hoursPerDay`. -/
theorem daily_cap_rounded (S : List String) (hpd : ℚ) (D : ℕ)
    (h1 : S ≠ []) (h2 : S.Nodup) (h4 : 0 < hpd) (h5 : hpd ≤ 24) (h6 : 1 ≤ D)
    (dp : DayPlan) (hdp : dp ∈ calculateStudyPlan S hpd D) :
    esum dp.subjects ≤ hpd ∧
      rsum dp.subjects ≤ hpd + (dp.subjects.length : ℚ) / 200 := by
  have inv := calcRun_inv S hpd D h1 h2 h4
  have hcap := inv.day_cap dp hdp
  have hrounds : ∀ a ∈ dp.subjects, a.hours = round2 a.exact :=
    fun a ha => inv.alloc_round a (mem_allAllocs hdp ha)
  have hb := abs_le.1 (abs_rsum_sub_esum hrounds)
  exact ⟨hcap, by linarith [hb.2]⟩

/-- C4 witness: the amended daily-cap statement at
`subjects = ["A"]`, `hoursPerDay = 2`, `totalDays = 1`. -/
theorem daily_cap_rounded_witness :
    (⟨1, [⟨"A", 2, 2⟩], 2⟩ : DayPlan) ∈ calculateStudyPlan ["A"] 2 1 ∧
      esum (⟨1, [⟨"A", 2, 2⟩], 2⟩ : DayPlan).subjects ≤ 2 ∧
      rsum (⟨1, [⟨"A", 2, 2⟩], 2⟩ : DayPlan).subjects ≤
        2 + ((⟨1, [⟨"A", 2, 2⟩], 2⟩ : DayPlan).subjects.length : ℚ) / 200 :=
  ⟨by decide, daily_cap_rounded ["A"] 2 1 (by decide) (by decide) (by decide)
    (by decide) (by decide) _ (by decide)⟩

/-- C5: on every valid input the remaining-hours map stays nonnegative at
every step of the day/session loops (state after `k` full days and `j`
further inner iterations), and if the run ends with the safety-valve break
never taken, every subject's remaining-hours entry is exactly `0`. -/
theorem budget_invariant (S : List String) (hpd : ℚ) (D : ℕ)
    (h1 : S ≠ []) (h2 : S.Nodup) (h4 : 0 < hpd) (h5 : hpd ≤ 24) (h6 : 1 ≤ D) :
    (∀ k, k ≤ D → ∀ j s, 0 ≤ (fillDay S (valveBound S D) j
        (dayInit hpd (runUpTo S hpd D k))).remaining s) ∧
      ((calcRun S hpd D).valveFired = false →
        ∀ s ∈ S, (calcRun S hpd D).remaining s = 0) := by
  constructor
  · intro k _ j s
    exact fillDay_rem_nonneg S (valveBound S D) j (dayInit hpd (runUpTo S hpd D k))
      (OuterInv_runUpTo S hpd D h1 h2 h4 k).rem_nonneg s
  · exact calcRun_rem_zero S hpd D h1 h2 h4

/-- C5 witness: the budget invariant at
`subjects = ["A"]`, `hoursPerDay = 2`, `totalDays = 1`. -/
theorem budget_invariant_witness :
    (0 : ℚ) ≤ (fillDay ["A"] (valveBound ["A"] 1) 0
        (dayInit 2 (runUpTo ["A"] 2 1 1))).remaining "A" ∧
      (calcRun ["A"] 2 1).remaining "A" = 0 :=
  ⟨(budget_invariant ["A"] 2 1 (by decide) (by decide) (by decide) (by decide)
      (by decide)).1 1 (le_refl 1) 0 "A",
    (budget_invariant ["A"] 2 1 (by decide) (by decide) (by decide) (by decide)
      (by decide)).2 (by decide) "A" (by decide)⟩

/-- C7: Scenario D.  `calculateStudyPlan(["A","B","C","D"], 1, 4)` produces
exactly four one-allocation DayPlans, A on day 1, B on day 2, C on day 3
and D on day 4, each with one hour and `totalHours = 1`: the rotation
cursor persists across day boundaries instead of resetting each day. -/
theorem scenario_d :
    calculateStudyPlan ["A", "B", "C", "D"] 1 4 =
      [⟨1, [⟨"A", 1, 1⟩], 1⟩, ⟨2, [⟨"B", 1, 1⟩], 1⟩,
        ⟨3, [⟨"C", 1, 1⟩], 1⟩, ⟨4, [⟨"D", 1, 1⟩], 1⟩] := by decide

/-- C8: contrary to the claim, the safety-valve break (script.js lines
170-173) is reachable on a valid input: with `subjects = ["A"]`,
`hoursPerDay = 24`, `totalDays = 1` the cursor bound `1 × 1 × 10` is
crossed after 11 two-hour sessions, the valve fires, and the produced
schedule records only 22 of the 24 available hours. -/
theorem safety_valve_fires :
    (calcRun ["A"] 24 1).valveFired = true ∧
      rsum (allAllocs (calculateStudyPlan ["A"] 24 1)) = 22 := by decide

/-- C9: on the empty subject list the scheduler terminates and returns the
empty Schedule for every `hoursPerDay` and every `totalDays ≥ 1`: each
day's inner loop makes no allocation (the `undefined` budget read fails the
`> 0` test) and breaks at once on the vacuously-true exhaustion check, and
every empty day is discarded. -/
theorem empty_subjects_schedule (hpd : ℚ) (D : ℕ) (hD : 1 ≤ D) :
    calculateStudyPlan [] hpd D = [] := by
  have h0 : (initState [] hpd D).remaining "" ≤ 0 := by
    show remaining0 [] hpd D "" ≤ 0
    rw [remaining0_eq]
    simp
  exact runDays_nil hpd (valveBound [] D) D 1 (initState [] hpd D) h0

/-- C9 witness: the empty-list run at `hoursPerDay = 5`, `totalDays = 3`. -/
theorem empty_subjects_schedule_witness :
    1 ≤ 3 ∧ calculateStudyPlan [] 5 3 = [] :=
  ⟨by decide, empty_subjects_schedule 5 3 (by decide)⟩

/-- C10: the validator accepts the non-empty subjects string `","`
(together with every valid `hoursPerDay` and `daysLeft`), yet
`parseSubjects` maps `","` to the empty list, so `generateStudyPlan` can
reach `calculateStudyPlan` with an empty subject list despite the
validator's non-emptiness check. -/
theorem validator_gap :
    (∀ (h : ℚ) (d : ℤ), 0 < h → h ≤ 24 → 0 < d →
      (validateInputs "," h d).isValid = true) ∧
      parseSubjects "," = [] := by
  constructor
  · intro h d h1 h2 h3
    have hA : ¬("," = "") := by decide
    have hB : ¬(h = 0 ∨ h ≤ 0) := by
      push_neg
      exact ⟨ne_of_gt h1, h1⟩
    have hC : ¬(24 < h) := not_lt.2 h2
    have hD2 : ¬(d = 0 ∨ d ≤ 0) := by
      push_neg
      exact ⟨ne_of_gt h3, h3⟩
    unfold validateInputs
    rw [if_neg hA, if_neg hB, if_neg hC, if_neg hD2]
  · decide

/-- C10 witness: the validator gap at `hoursPerDay = 1`, `daysLeft = 1`. -/
theorem validator_gap_witness :
    (validateInputs "," 1 1).isValid = true ∧ parseSubjects "," = [] :=
  ⟨validator_gap.1 1 1 (by decide) (by decide) (by decide), validator_gap.2⟩

end StudyPlanner
